import Mathlib

/-!
Verification of the laser-wanderer reactive controller
(`lab1/src/laser_wanderer.py`).

The Python source is shallowly embedded: floating-point numbers become
real numbers, NumPy/Python list indexing (with its negative-index wrap
and `IndexError`) becomes an `Except`-valued lookup, a NaN "no return"
laser sample becomes `Option.none` (every ordered comparison against it
is false, as for IEEE NaN), and the two heading-wrap `while` loops of
`kinematic_model_step` are embedded as closed-form total functions
certified by their loop recurrences.  The termination claim about the
second wrap loop is settled against binary64 semantics: `fl64` models
IEEE round-to-nearest-even with a 53-bit significand, under which the
loop's increment is absorbed at large magnitudes and the loop diverges.
-/

open Real

/-- Python runtime errors that the embedded code can raise. -/
inductive PyErr where
  | indexError : PyErr
  | valueError : PyErr
deriving DecidableEq, Repr

/-- Python list indexing `l[i]` with an integer index: a negative index
first has the length added to it; any resulting index outside
`[0, len)` raises `IndexError`. -/
def pyIdx {α : Type} (l : List α) (i : ℤ) : Except PyErr α :=
  let j : ℤ := if i < 0 then i + l.length else i
  if j < 0 then .error .indexError
  else
    match l.get? j.toNat with
    | some a => .ok a
    | none => .error .indexError

/-- Python 2 `round`: round half away from zero (the result is fed to
`int(...)` in the source, so we return the integer directly). -/
noncomputable def pyround (x : ℝ) : ℤ :=
  if 0 ≤ x then ⌊x + 1 / 2⌋ else -⌊-x + 1 / 2⌋

/-- `math.atan2 y x` as specified for the C library: the angle of the
point `(x, y)`, in `(-π, π]`. -/
noncomputable def atan2 (y x : ℝ) : ℝ :=
  if 0 < x then Real.arctan (y / x)
  else if x < 0 then
    (if 0 ≤ y then Real.arctan (y / x) + Real.pi
     else Real.arctan (y / x) - Real.pi)
  else
    (if 0 < y then Real.pi / 2 else if y < 0 then -(Real.pi / 2) else 0)

/-- `MAX_PENALTY` from the source: penalty applied when a rollout
configuration goes beyond the corresponding laser measurement. -/
def MAX_PENALTY : ℝ := 10000

/-- The fields of a `sensor_msgs/LaserScan` used by the controller.
A `none` range sample stands for a NaN / "no return" measurement. -/
structure LaserScanMsg where
  ranges : List (Option ℝ)
  angle_min : ℝ
  angle_increment : ℝ

/-- The comparison `pose_distance > r - |laser_offset|` of the source,
where `r` may be NaN (`none`): any comparison with NaN is false. -/
noncomputable def rangeGt (pose_distance : ℝ) (r : Option ℝ) (laser_offset : ℝ) : Bool :=
  match r with
  | none => false
  | some d => decide (pose_distance > d - |laser_offset|)

/-- The laser-ray index the source computes for a rollout pose:
`int(round((atan2(y, x) - angle_min) / angle_increment))`. -/
noncomputable def scan_index (rollout_pose : ℝ × ℝ × ℝ) (laser_msg : LaserScanMsg) : ℤ :=
  pyround ((atan2 rollout_pose.2.1 rollout_pose.1 - laser_msg.angle_min) / laser_msg.angle_increment)

/-- `LaserWanderer.compute_cost`: cost of one step of one trajectory.
Initializes the cost to `|delta|`, samples the laser at the computed
index and its two neighbours (in the source's order: `idx`, `idx+1`,
`idx-1`, each raising `IndexError` via Python indexing when out of
range), adds `MAX_PENALTY` for every sampled ray the squared planar
distance exceeds, and finally divides the whole cost by 3. -/
noncomputable def compute_cost (laser_offset : ℝ) (delta : ℝ)
    (rollout_pose : ℝ × ℝ × ℝ) (laser_msg : LaserScanMsg) : Except PyErr ℝ := do
  let cost : ℝ := |delta|
  let idx : ℤ := scan_index rollout_pose laser_msg
  let laser_distance0 ← pyIdx laser_msg.ranges idx
  let laser_distance1 ← pyIdx laser_msg.ranges (idx + 1)
  let laser_distance2 ← pyIdx laser_msg.ranges (idx - 1)
  let pose_distance : ℝ := rollout_pose.1 ^ 2 + rollout_pose.2.1 ^ 2
  let cost := if rangeGt pose_distance laser_distance0 laser_offset then cost + MAX_PENALTY else cost
  let cost := if rangeGt pose_distance laser_distance1 laser_offset then cost + MAX_PENALTY else cost
  let cost := if rangeGt pose_distance laser_distance2 laser_offset then cost + MAX_PENALTY else cost
  return cost / 3

/-- Closed form of the source's first wrap loop
`while theta + dtheta > 2*pi: dtheta -= 2*pi`, applied to
`s = theta + dtheta`: subtract `2π` the minimal number of times needed
to reach a value `≤ 2π`. -/
noncomputable def wrapDown (s : ℝ) : ℝ :=
  s - 2 * Real.pi * ⌈(s - 2 * Real.pi) / (2 * Real.pi)⌉₊

/-- Closed form of the source's second wrap loop
`while theta + dtheta < 2*pi: dtheta += 2*pi`, applied to
`s = theta + dtheta`: add `2π` the minimal number of times needed to
reach a value `≥ 2π`. -/
noncomputable def wrapUp (s : ℝ) : ℝ :=
  s + 2 * Real.pi * ⌈(2 * Real.pi - s) / (2 * Real.pi)⌉₊

/-- Round to nearest integer, ties to even (the rounding the IEEE 754
default mode applies to the scaled significand). -/
noncomputable def rne (y : ℝ) : ℤ :=
  if y - ⌊y⌋ = 1 / 2 then (if 2 ∣ ⌊y⌋ then ⌊y⌋ else ⌊y⌋ + 1) else round y

/-- Exponent of the unit in the last place of a binary64 number with
value `x`: the significand has 53 bits, so the spacing of doubles
around `x` is `2 ^ (⌊log2 |x|⌋ - 52)`. -/
noncomputable def ulpExp (x : ℝ) : ℤ := Int.log 2 |x| - 52

/-- IEEE binary64 round-to-nearest (ties to even) with a 53-bit
significand and unbounded exponent range: the result of every
binary64 arithmetic operation is `fl64` of its exact real value.
Overflow to infinity and subnormal underflow are not modelled, so this
agrees with binary64 exactly on the normal range — which contains
every value appearing in the theorems below (magnitudes between 1 and
`2^66`). -/
noncomputable def fl64 (x : ℝ) : ℝ :=
  if x = 0 then 0 else (rne (x / 2 ^ ulpExp x) : ℝ) * 2 ^ ulpExp x

/-- The binary64 value of the expression `2*np.pi` in the source:
`np.pi` is `π` rounded to a double, and the multiplication by 2
rounds again (exactly, since doubling a double is representable). -/
noncomputable def twoPi64 : ℝ := fl64 (2 * fl64 Real.pi)

/-- The source's first wrap loop `while theta + dtheta > 2*np.pi:
dtheta -= 2*np.pi` under binary64 semantics, run with explicit fuel:
the guard compares the rounded float sum against `twoPi64`, and the
update is the rounded float subtraction. -/
noncomputable def wrapDownFloatFuel : ℕ → ℝ → ℝ → Option ℝ
  | 0, theta, dtheta => if twoPi64 < fl64 (theta + dtheta) then none else some dtheta
  | n + 1, theta, dtheta =>
    if twoPi64 < fl64 (theta + dtheta) then
      wrapDownFloatFuel n theta (fl64 (dtheta - twoPi64))
    else some dtheta

/-- The source's second wrap loop `while theta + dtheta < 2*np.pi:
dtheta += 2*np.pi` under binary64 semantics, run with explicit fuel:
`none` means the loop has not exited within the given number of
iterations. -/
noncomputable def wrapUpFloatFuel : ℕ → ℝ → ℝ → Option ℝ
  | 0, theta, dtheta => if fl64 (theta + dtheta) < twoPi64 then none else some dtheta
  | n + 1, theta, dtheta =>
    if fl64 (theta + dtheta) < twoPi64 then
      wrapUpFloatFuel n theta (fl64 (dtheta + twoPi64))
    else some dtheta

/-- `kinematic_model_step`: apply the bicycle kinematic model to a pose
`(x, y, theta)` with control `(v, delta, dt)`.  Below the `1e-2`
steering threshold the motion is straight-line with `dtheta = 0`;
otherwise the closed-form arc solution is used.  The two wrap loops
then adjust `dtheta` so that the returned heading is
`wrapUp (wrapDown (theta + dtheta))`. -/
noncomputable def kinematic_model_step (pose : ℝ × ℝ × ℝ) (control : ℝ × ℝ × ℝ)
    (car_length : ℝ) : ℝ × ℝ × ℝ :=
  let x := pose.1
  let y := pose.2.1
  let theta := pose.2.2
  let v := control.1
  let delta := control.2.1
  let dt := control.2.2
  let d : ℝ × ℝ × ℝ :=
    if |delta| < 1 / 100 then
      (v * Real.cos theta * dt, v * Real.sin theta * dt, 0)
    else
      let beta := Real.arctan (0.5 * Real.tan delta)
      let sin2beta := Real.sin (2 * beta)
      let dtheta := v / car_length * sin2beta * dt
      (car_length / sin2beta * (Real.sin (theta + dtheta) - Real.sin theta),
       car_length / sin2beta * (-1 * Real.cos (theta + dtheta) + Real.cos theta),
       dtheta)
  (x + d.1, y + d.2.1, wrapUp (wrapDown (theta + d.2.2)))

/-- The body of `generate_rollout`'s loop: starting from `current_pose`,
apply `kinematic_model_step` once per control and record each resulting
pose (the recorded pose becomes the next `current_pose`). -/
noncomputable def rolloutPoses (car_length : ℝ) : List (ℝ × ℝ × ℝ) → (ℝ × ℝ × ℝ) → List (ℝ × ℝ × ℝ)
  | [], _ => []
  | c :: cs, p =>
    let p' := kinematic_model_step p c car_length
    p' :: rolloutPoses car_length cs p'

/-- `generate_rollout`: allocates a `T × 3` zero matrix, overwrites row
`i` with the pose after `i+1` kinematic steps for each control row, and
returns the matrix.  The source ignores `init_pose` and starts from a
hard-coded `(0, 0, 0)`; rows beyond the number of controls keep their
zero initialization. -/
noncomputable def generate_rollout (init_pose : ℝ × ℝ × ℝ) (controls : List (ℝ × ℝ × ℝ))
    (car_length : ℝ) (T : ℕ) : List (ℝ × ℝ × ℝ) :=
  rolloutPoses car_length controls (0, 0, 0) ++
    List.replicate (T - controls.length) ((0 : ℝ), (0 : ℝ), (0 : ℝ))

/-- `numpy.arange start stop step`: `none` when `step = 0` (NumPy
raises), otherwise the list `start, start + step, ...` of length
`max 0 ⌈(stop - start) / step⌉`. -/
noncomputable def np_arange (start stop step : ℝ) : Option (List ℝ) :=
  if step = 0 then none
  else some ((List.range ⌈(stop - start) / step⌉₊).map (fun i : ℕ => start + (i : ℝ) * step))

/-- `generate_mpc_rollouts`: candidate steering angles are
`np.arange min_delta max_delta delta_incr`; for each candidate the
constant control `(speed, delta, dt)` is applied `T` times via
`generate_rollout`.  Returns `(rollouts, deltas)`. -/
noncomputable def generate_mpc_rollouts (speed min_delta max_delta delta_incr dt : ℝ)
    (T : ℕ) (car_length : ℝ) : Option (List (List (ℝ × ℝ × ℝ)) × List ℝ) := do
  let deltas ← np_arange min_delta max_delta delta_incr
  let rollouts := deltas.map (fun delta =>
    generate_rollout ((0 : ℝ), (0 : ℝ), (0 : ℝ))
      (List.replicate T (speed, delta, dt)) car_length T)
  return (rollouts, deltas)

/-- Inner loop of `wander_cb` for one candidate: fold `compute_cost`
over the rollout's poses, accumulating into the candidate's cost cell
(errors propagate in evaluation order, as Python exceptions do). -/
noncomputable def trajCost (laser_offset delta : ℝ) (rollout : List (ℝ × ℝ × ℝ))
    (laser_msg : LaserScanMsg) : Except PyErr ℝ :=
  rollout.foldlM (fun acc p => do
    let c ← compute_cost laser_offset delta p laser_msg
    return acc + c) 0

/-- One full `(candidate × horizon-step)` sweep of `wander_cb`'s while
loop: the per-candidate cost contributions of one pass over every
rollout. -/
noncomputable def sweepOnce (laser_offset : ℝ) (deltas : List ℝ)
    (rollouts : List (List (ℝ × ℝ × ℝ))) (laser_msg : LaserScanMsg) : Except PyErr (List ℝ) :=
  (deltas.zip rollouts).mapM (fun dr => trajCost laser_offset dr.1 dr.2 laser_msg)

/-- The accumulator `delta_costs` after `k` completed full sweeps:
initialized to `np.zeros(N)` and incremented by one sweep's
contributions per iteration of the timed while loop. -/
noncomputable def runSweeps (laser_offset : ℝ) (deltas : List ℝ)
    (rollouts : List (List (ℝ × ℝ × ℝ))) (laser_msg : LaserScanMsg) :
    ℕ → Except PyErr (List ℝ)
  | 0 => .ok (List.replicate deltas.length 0)
  | k + 1 => do
    let acc ← runSweeps laser_offset deltas rollouts laser_msg k
    let s ← sweepOnce laser_offset deltas rollouts laser_msg
    return List.zipWith (· + ·) acc s

/-- Scan of `np.argmin`: keep the first index attaining the running
minimum (a later element replaces the best only when strictly
smaller). -/
noncomputable def argminAux : List ℝ → ℝ → ℕ → ℕ → ℕ
  | [], _, best_idx, _ => best_idx
  | x :: xs, best, best_idx, i =>
    if x < best then argminAux xs x i (i + 1) else argminAux xs best best_idx (i + 1)

/-- `np.argmin`: first index of the minimum value; raises `ValueError`
on an empty array. -/
noncomputable def np_argmin (l : List ℝ) : Except PyErr ℕ :=
  match l with
  | [] => .error .valueError
  | x :: xs => .ok (argminAux xs x 0 1)

/-- `wander_cb` with the wall-clock while loop abstracted by the number
`k` of completed full sweeps: accumulate costs for `k` sweeps, pick
`np.argmin`, and emit the command `(deltas[chosen], speed)`. -/
noncomputable def wander_cb (laser_offset speed : ℝ) (deltas : List ℝ)
    (rollouts : List (List (ℝ × ℝ × ℝ))) (laser_msg : LaserScanMsg) (k : ℕ) :
    Except PyErr (ℝ × ℝ) := do
  let delta_costs ← runSweeps laser_offset deltas rollouts laser_msg k
  let chosen_delta ← np_argmin delta_costs
  let steer ← pyIdx deltas (chosen_delta : ℤ)
  return (steer, speed)

/-- `k` is the number of full sweeps the timed while loop completes for
a given monotone sequence of clock readings (`clock i` is the reading
at the `i`-th check of `rospy.Time.now().to_sec() < start +
compute_time`): every check before the `k`-th passes and the `k`-th
fails. -/
def sweepsValid (clock : ℕ → ℝ) (start compute_time : ℝ) (k : ℕ) : Prop :=
  (∀ i < k, clock i < start + compute_time) ∧ start + compute_time ≤ clock k

/-- `n`-fold application of `kinematic_model_step` with a fixed
control. -/
noncomputable def stepIter (car_length : ℝ) (c : ℝ × ℝ × ℝ) : ℕ → (ℝ × ℝ × ℝ) → (ℝ × ℝ × ℝ)
  | 0, p => p
  | n + 1, p => stepIter car_length c n (kinematic_model_step p c car_length)

/-- Concrete rollout pose used in the worked examples: one metre
straight ahead, so its bearing in the sensor frame is `atan2 0 1 = 0`. -/
def pA : ℝ × ℝ × ℝ := (1, 0, 0)

/-- Example scan: three valid 10 m returns, `angle_min = -1`,
`angle_increment = 1`, so `pA`'s bearing maps to index 1 and all of
indices 0, 1, 2 are sampled. -/
def msgA : LaserScanMsg := ⟨[some 10, some 10, some 10], -1, 1⟩

/-- Example scan identical to `msgA` but with every sample a NaN
"no return". -/
def msgANone : LaserScanMsg := ⟨[none, none, none], -1, 1⟩

/-- Example scan with a single ray at `angle_min = 0`: `pA`'s bearing
maps to index 0, so the source's `idx+1` lookup is out of range. -/
def msgB : LaserScanMsg := ⟨[some 5], 0, 1⟩

/-- Example two-ray scan with `angle_min = 0`: `pA`'s bearing maps to
index 0, so the source's `idx-1` lookup is Python index `-1`, which
silently wraps to the last element. -/
def msgC : LaserScanMsg := ⟨[some 5, some 7], 0, 1⟩

/-! ### Certification of the closed-form wrap loops -/

lemma nat_ceil_shift {t : ℝ} (ht : 0 < t) : ⌈t⌉₊ = ⌈t - 1⌉₊ + 1 := by
  rcases le_or_lt t 1 with h1 | h1
  · have hone : ⌈t⌉₊ = 1 :=
      le_antisymm (Nat.ceil_le.mpr (by exact_mod_cast h1)) (Nat.ceil_pos.mpr ht)
    rw [hone, Nat.ceil_eq_zero.mpr (by linarith)]
  · have h0 : (0 : ℝ) ≤ t - 1 := by linarith
    calc ⌈t⌉₊ = ⌈(t - 1) + 1⌉₊ := by ring_nf
    _ = ⌈t - 1⌉₊ + 1 := Nat.ceil_add_one h0

lemma wrapUp_of_ge {s : ℝ} (h : 2 * Real.pi ≤ s) : wrapUp s = s := by
  have : (2 * Real.pi - s) / (2 * Real.pi) ≤ 0 :=
    div_nonpos_iff.mpr (Or.inr ⟨by linarith, le_of_lt two_pi_pos⟩)
  simp [wrapUp, Nat.ceil_eq_zero.mpr this]

lemma wrapUp_of_lt {s : ℝ} (h : s < 2 * Real.pi) :
    wrapUp s = wrapUp (s + 2 * Real.pi) := by
  have hc : (2 : ℝ) * Real.pi ≠ 0 := ne_of_gt two_pi_pos
  have ht : 0 < (2 * Real.pi - s) / (2 * Real.pi) :=
    div_pos (by linarith) two_pi_pos
  have harg : (2 * Real.pi - s) / (2 * Real.pi) - 1
      = (2 * Real.pi - (s + 2 * Real.pi)) / (2 * Real.pi) := by
    field_simp
  unfold wrapUp
  rw [nat_ceil_shift ht, harg]
  push_cast
  ring

/-- The closed form satisfies the recurrence of the loop
`while s < 2*pi: s += 2*pi`. -/
theorem wrapUp_eq (s : ℝ) :
    wrapUp s = if s < 2 * Real.pi then wrapUp (s + 2 * Real.pi) else s := by
  split
  · exact wrapUp_of_lt (by assumption)
  · exact wrapUp_of_ge (le_of_not_lt (by assumption))

lemma wrapDown_of_le {s : ℝ} (h : s ≤ 2 * Real.pi) : wrapDown s = s := by
  have : (s - 2 * Real.pi) / (2 * Real.pi) ≤ 0 :=
    div_nonpos_iff.mpr (Or.inr ⟨by linarith, le_of_lt two_pi_pos⟩)
  simp [wrapDown, Nat.ceil_eq_zero.mpr this]

lemma wrapDown_of_gt {s : ℝ} (h : 2 * Real.pi < s) :
    wrapDown s = wrapDown (s - 2 * Real.pi) := by
  have hc : (2 : ℝ) * Real.pi ≠ 0 := ne_of_gt two_pi_pos
  have ht : 0 < (s - 2 * Real.pi) / (2 * Real.pi) :=
    div_pos (by linarith) two_pi_pos
  have harg : (s - 2 * Real.pi) / (2 * Real.pi) - 1
      = ((s - 2 * Real.pi) - 2 * Real.pi) / (2 * Real.pi) := by
    field_simp
  unfold wrapDown
  rw [nat_ceil_shift ht, harg]
  push_cast
  ring

/-- The closed form satisfies the recurrence of the loop
`while s > 2*pi: s -= 2*pi`. -/
theorem wrapDown_eq (s : ℝ) :
    wrapDown s = if 2 * Real.pi < s then wrapDown (s - 2 * Real.pi) else s := by
  split
  · exact wrapDown_of_gt (by assumption)
  · exact wrapDown_of_le (le_of_not_lt (by assumption))

lemma wrapUp_ge (s : ℝ) : 2 * Real.pi ≤ wrapUp s := by
  rcases le_or_lt (2 * Real.pi) s with h | h
  · rw [wrapUp_of_ge h]; exact h
  · have ht : (2 * Real.pi - s) / (2 * Real.pi) ≤ ⌈(2 * Real.pi - s) / (2 * Real.pi)⌉₊ :=
      Nat.le_ceil _
    have := mul_le_mul_of_nonneg_left ht (le_of_lt two_pi_pos)
    have hcancel : 2 * Real.pi * ((2 * Real.pi - s) / (2 * Real.pi)) = 2 * Real.pi - s :=
      mul_div_cancel₀ _ (ne_of_gt two_pi_pos)
    unfold wrapUp
    nlinarith [this]

lemma wrapDown_le (s : ℝ) : wrapDown s ≤ 2 * Real.pi := by
  rcases le_or_lt s (2 * Real.pi) with h | h
  · rw [wrapDown_of_le h]; exact h
  · have ht : (s - 2 * Real.pi) / (2 * Real.pi) ≤ ⌈(s - 2 * Real.pi) / (2 * Real.pi)⌉₊ :=
      Nat.le_ceil _
    have := mul_le_mul_of_nonneg_left ht (le_of_lt two_pi_pos)
    have hcancel : 2 * Real.pi * ((s - 2 * Real.pi) / (2 * Real.pi)) = s - 2 * Real.pi :=
      mul_div_cancel₀ _ (ne_of_gt two_pi_pos)
    unfold wrapDown
    nlinarith [this]

lemma wrapUp_lt_of_le {s : ℝ} (h : s ≤ 2 * Real.pi) : wrapUp s < 4 * Real.pi := by
  rcases eq_or_lt_of_le h with heq | hlt
  · rw [heq, wrapUp_of_ge (le_refl _)]
    nlinarith [Real.pi_pos]
  · have ht0 : (0 : ℝ) ≤ (2 * Real.pi - s) / (2 * Real.pi) :=
      le_of_lt (div_pos (by linarith) two_pi_pos)
    have hceil : (⌈(2 * Real.pi - s) / (2 * Real.pi)⌉₊ : ℝ)
        < (2 * Real.pi - s) / (2 * Real.pi) + 1 := Nat.ceil_lt_add_one ht0
    have := mul_lt_mul_of_pos_left hceil two_pi_pos
    have hcancel : 2 * Real.pi * ((2 * Real.pi - s) / (2 * Real.pi)) = 2 * Real.pi - s :=
      mul_div_cancel₀ _ (ne_of_gt two_pi_pos)
    unfold wrapUp
    nlinarith [this]

/-- The heading the step function returns is always in `[2π, 4π)`. -/
theorem step_heading_range (s : ℝ) :
    2 * Real.pi ≤ wrapUp (wrapDown s) ∧ wrapUp (wrapDown s) < 4 * Real.pi :=
  ⟨wrapUp_ge _, wrapUp_lt_of_le (wrapDown_le s)⟩

/-- The wrap loops only change the heading by an integer multiple of
`2π`. -/
theorem wrap_multiple (s : ℝ) : ∃ k : ℤ, wrapUp (wrapDown s) = s + 2 * Real.pi * k := by
  refine ⟨(⌈(2 * Real.pi - wrapDown s) / (2 * Real.pi)⌉₊ : ℤ)
    - (⌈(s - 2 * Real.pi) / (2 * Real.pi)⌉₊ : ℤ), ?_⟩
  unfold wrapUp wrapDown
  push_cast
  ring

/-! ### Evaluation of the wrap loops and the step function at
concrete headings -/

lemma wrapDown_zero : wrapDown 0 = 0 := by
  unfold wrapDown
  have h : ((0 : ℝ) - 2 * Real.pi) / (2 * Real.pi) ≤ 0 := by
    apply div_nonpos_iff.mpr
    exact Or.inr ⟨by nlinarith [Real.pi_pos], by nlinarith [Real.pi_pos]⟩
  rw [Nat.ceil_eq_zero.mpr h]
  norm_num

lemma wrapUp_zero : wrapUp 0 = 2 * Real.pi := by
  unfold wrapUp
  have h2 : (2 * Real.pi - 0) / (2 * Real.pi) = 1 := by
    rw [sub_zero]
    exact div_self (by positivity)
  rw [h2]
  simp

/-- The step function at pose `(0,0,0)`, control `(v,δ,dt) = (1,0,1)`,
wheelbase 1: the straight-line branch fires (`|0| < 1e-2`), yet the
wrap loops move the heading from `0` to `2π`. -/
lemma step_eval_straight :
    kinematic_model_step (0, 0, 0) (1, 0, 1) 1 = (1, 0, 2 * Real.pi) := by
  unfold kinematic_model_step
  norm_num [wrapDown_zero, wrapUp_zero]

/-! ### The cost evaluator -/

/-- When the three laser lookups succeed, `compute_cost` returns
`(|δ| + penalties) / 3`: the whole cost, the steering term included,
is divided by 3. -/
lemma compute_cost_ok (laser_offset delta : ℝ) (p : ℝ × ℝ × ℝ) (msg : LaserScanMsg)
    (r0 r1 r2 : Option ℝ)
    (h0 : pyIdx msg.ranges (scan_index p msg) = .ok r0)
    (h1 : pyIdx msg.ranges (scan_index p msg + 1) = .ok r1)
    (h2 : pyIdx msg.ranges (scan_index p msg - 1) = .ok r2) :
    compute_cost laser_offset delta p msg =
      .ok ((|delta|
        + (if rangeGt (p.1 ^ 2 + p.2.1 ^ 2) r0 laser_offset then MAX_PENALTY else 0)
        + (if rangeGt (p.1 ^ 2 + p.2.1 ^ 2) r1 laser_offset then MAX_PENALTY else 0)
        + (if rangeGt (p.1 ^ 2 + p.2.1 ^ 2) r2 laser_offset then MAX_PENALTY else 0)) / 3) := by
  simp only [compute_cost, h0, h1, h2, bind, Except.bind, pure, Except.pure]
  split_ifs <;> ring_nf

lemma scan_index_shift_min_neg_one (rs : List (Option ℝ)) :
    scan_index pA ⟨rs, -1, 1⟩ = 1 := by
  unfold scan_index pA atan2 pyround
  norm_num [Real.arctan_zero]

lemma scan_index_shift_min_zero (rs : List (Option ℝ)) :
    scan_index pA ⟨rs, 0, 1⟩ = 0 := by
  unfold scan_index pA atan2 pyround
  norm_num [Real.arctan_zero]

lemma scan_index_msgA : scan_index pA msgA = 1 := scan_index_shift_min_neg_one _

lemma scan_index_msgANone : scan_index pA msgANone = 1 := scan_index_shift_min_neg_one _

lemma scan_index_msgB : scan_index pA msgB = 0 := scan_index_shift_min_zero _

lemma scan_index_msgC : scan_index pA msgC = 0 := scan_index_shift_min_zero _

/-! ### Rollout generation -/

lemma rolloutPoses_length (car_length : ℝ) :
    ∀ (cs : List (ℝ × ℝ × ℝ)) (p : ℝ × ℝ × ℝ),
      (rolloutPoses car_length cs p).length = cs.length := by
  intro cs
  induction cs with
  | nil => intro p; rfl
  | cons c cs ih => intro p; simp [rolloutPoses, ih]

lemma rolloutPoses_replicate_get (car_length : ℝ) (c : ℝ × ℝ × ℝ) :
    ∀ (T : ℕ) (t : ℕ) (p : ℝ × ℝ × ℝ), t < T →
      (rolloutPoses car_length (List.replicate T c) p).get? t
        = some (stepIter car_length c (t + 1) p) := by
  intro T
  induction T with
  | zero => intro t p ht; omega
  | succ n ih =>
    intro t p ht
    cases t with
    | zero => simp [rolloutPoses, stepIter]
    | succ t =>
      have ht' : t < n := by omega
      simp only [List.replicate_succ, rolloutPoses, List.get?_cons_succ]
      rw [ih t _ ht']
      rfl

lemma np_arange_pos (start stop step : ℝ) (hstep : step ≠ 0) :
    np_arange start stop step
      = some ((List.range ⌈(stop - start) / step⌉₊).map (fun i : ℕ => start + (i : ℝ) * step)) := by
  unfold np_arange
  rw [if_neg hstep]

lemma np_arange_length (start stop step : ℝ) (hstep : step ≠ 0) (l : List ℝ)
    (h : np_arange start stop step = some l) :
    l.length = ⌈(stop - start) / step⌉₊ := by
  rw [np_arange_pos _ _ _ hstep] at h
  injection h with h2
  rw [← h2, List.length_map, List.length_range]

lemma generate_mpc_rollouts_ok (speed min_delta max_delta delta_incr dt : ℝ)
    (T : ℕ) (car_length : ℝ) (hstep : delta_incr ≠ 0) :
    generate_mpc_rollouts speed min_delta max_delta delta_incr dt T car_length
      = some (((List.range ⌈(max_delta - min_delta) / delta_incr⌉₊).map
            (fun i : ℕ => min_delta + (i : ℝ) * delta_incr)).map
            (fun delta => generate_rollout ((0 : ℝ), (0 : ℝ), (0 : ℝ))
              (List.replicate T (speed, delta, dt)) car_length T),
          (List.range ⌈(max_delta - min_delta) / delta_incr⌉₊).map
            (fun i : ℕ => min_delta + (i : ℝ) * delta_incr)) := by
  unfold generate_mpc_rollouts
  rw [np_arange_pos _ _ _ hstep]
  rfl

lemma generate_rollout_full_length (controls : List (ℝ × ℝ × ℝ)) (car_length : ℝ)
    (T : ℕ) (hT : controls.length = T) :
    (generate_rollout ((0 : ℝ), (0 : ℝ), (0 : ℝ)) controls car_length T).length = T := by
  unfold generate_rollout
  simp [rolloutPoses_length, hT]

/-! ### The search loop: sweeps, accumulators, argmin -/

lemma mapM_ok_length {α β : Type} (f : α → Except PyErr β) :
    ∀ (l : List α) (c : List β), l.mapM f = .ok c → c.length = l.length := by
  intro l
  induction l with
  | nil =>
    intro c h
    rw [List.mapM_nil] at h
    injection h with h2
    rw [← h2]
    rfl
  | cons x xs ih =>
    intro c h
    rw [List.mapM_cons] at h
    cases hfx : f x with
    | error e =>
      rw [hfx] at h
      simp only [bind, Except.bind] at h
      exact absurd h (by simp)
    | ok y =>
      rw [hfx] at h
      cases hxs : xs.mapM f with
      | error e =>
        rw [hxs] at h
        simp only [bind, Except.bind] at h
        exact absurd h (by simp)
      | ok ys =>
        rw [hxs] at h
        simp only [bind, Except.bind, pure, Except.pure] at h
        injection h with h2
        rw [← h2]
        simp [ih ys hxs]

lemma sweepOnce_nil (laser_offset : ℝ) (rollouts : List (List (ℝ × ℝ × ℝ)))
    (laser_msg : LaserScanMsg) : sweepOnce laser_offset [] rollouts laser_msg = .ok [] := rfl

lemma runSweeps_nil (laser_offset : ℝ) (rollouts : List (List (ℝ × ℝ × ℝ)))
    (laser_msg : LaserScanMsg) :
    ∀ k, runSweeps laser_offset [] rollouts laser_msg k = .ok [] := by
  intro k
  induction k with
  | zero => rfl
  | succ k ih =>
    rw [runSweeps]
    rw [ih, sweepOnce_nil]
    rfl

lemma map_zero_mul (c : List ℝ) :
    (c.map fun x => (0 : ℝ) * x) = List.replicate c.length 0 := by
  induction c with
  | nil => rfl
  | cons x xs ih => simp [ih, List.replicate_succ]

lemma zipWith_add_scale (a : ℝ) :
    ∀ (c : List ℝ),
      List.zipWith (· + ·) (c.map fun x => a * x) c = c.map fun x => (a + 1) * x := by
  intro c
  induction c with
  | nil => rfl
  | cons x xs ih =>
    simp only [List.map_cons, List.zipWith_cons_cons, ih]
    congr 1
    ring

lemma runSweeps_scale (laser_offset : ℝ) (deltas : List ℝ)
    (rollouts : List (List (ℝ × ℝ × ℝ))) (laser_msg : LaserScanMsg) (c : List ℝ)
    (hs : sweepOnce laser_offset deltas rollouts laser_msg = .ok c)
    (hlen : c.length = deltas.length) :
    ∀ k, runSweeps laser_offset deltas rollouts laser_msg k
      = .ok (c.map fun x => (k : ℝ) * x) := by
  intro k
  induction k with
  | zero =>
    rw [runSweeps]
    rw [Nat.cast_zero, map_zero_mul, hlen]
  | succ k ih =>
    rw [runSweeps]
    rw [ih, hs]
    simp only [bind, Except.bind, pure, Except.pure]
    rw [zipWith_add_scale, Nat.cast_succ]

lemma argminAux_map_scale (a : ℝ) (ha : 0 < a) :
    ∀ (l : List ℝ) (b : ℝ) (bi i : ℕ),
      argminAux (l.map fun x => a * x) (a * b) bi i = argminAux l b bi i := by
  intro l
  induction l with
  | nil => intro b bi i; rfl
  | cons x xs ih =>
    intro b bi i
    simp only [List.map_cons, argminAux]
    by_cases hx : x < b
    · rw [if_pos ((mul_lt_mul_left ha).mpr hx), if_pos hx, ih]
    · rw [if_neg (fun hc => hx ((mul_lt_mul_left ha).mp hc)), if_neg hx, ih]

lemma argminAux_replicate_zero :
    ∀ (n : ℕ) (bi i : ℕ), argminAux (List.replicate n (0 : ℝ)) 0 bi i = bi := by
  intro n
  induction n with
  | zero => intro bi i; rfl
  | succ n ih =>
    intro bi i
    rw [List.replicate_succ, argminAux, if_neg (lt_irrefl 0), ih]

/-- Invariant of `np.argmin`'s scan: either no element beats the
running best (the carried index is returned) or the result points at
the first strict improvement over the best, which is a global minimum
of the remaining list and strictly below every element before it. -/
lemma argminAux_spec :
    ∀ (l : List ℝ) (b : ℝ) (bi i : ℕ),
      (argminAux l b bi i = bi ∧ ∀ j w, l.get? j = some w → b ≤ w)
      ∨ (∃ j w, argminAux l b bi i = i + j ∧ l.get? j = some w ∧ w < b
          ∧ (∀ j2 w2, l.get? j2 = some w2 → w ≤ w2)
          ∧ (∀ j2, j2 < j → ∀ w2, l.get? j2 = some w2 → w < w2)) := by
  intro l
  induction l with
  | nil =>
    intro b bi i
    left
    exact ⟨rfl, by intro j w h; simp at h⟩
  | cons x xs ih =>
    intro b bi i
    by_cases hx : x < b
    · right
      rcases ih x i (i + 1) with ⟨heq, hall⟩ | ⟨j, w, heq, hget, hlt, hmin, hfirst⟩
      · refine ⟨0, x, ?_, rfl, hx, ?_, ?_⟩
        · rw [argminAux, if_pos hx, heq]
          omega
        · intro j2 w2 h2
          cases j2 with
          | zero => injection h2 with h3; rw [← h3]
          | succ j2 => exact hall j2 w2 h2
        · intro j2 h2 w2 hw2
          omega
      · refine ⟨j + 1, w, ?_, hget, lt_trans hlt hx, ?_, ?_⟩
        · rw [argminAux, if_pos hx, heq]
          omega
        · intro j2 w2 h2
          cases j2 with
          | zero =>
            injection h2 with h3
            rw [← h3]
            exact le_of_lt hlt
          | succ j2 => exact hmin j2 w2 h2
        · intro j2 h2 w2 hw2
          cases j2 with
          | zero =>
            injection hw2 with h3
            rw [← h3]
            exact hlt
          | succ j2 => exact hfirst j2 (by omega) w2 hw2
    · rcases ih b bi (i + 1) with ⟨heq, hall⟩ | ⟨j, w, heq, hget, hlt, hmin, hfirst⟩
      · left
        refine ⟨?_, ?_⟩
        · rw [argminAux, if_neg hx, heq]
        · intro j2 w2 h2
          cases j2 with
          | zero =>
            injection h2 with h3
            rw [← h3]
            exact le_of_not_lt hx
          | succ j2 => exact hall j2 w2 h2
      · right
        refine ⟨j + 1, w, ?_, hget, hlt, ?_, ?_⟩
        · rw [argminAux, if_neg hx, heq]
          omega
        · intro j2 w2 h2
          cases j2 with
          | zero =>
            injection h2 with h3
            rw [← h3]
            exact le_of_lt (lt_of_lt_of_le hlt (le_of_not_lt hx))
          | succ j2 => exact hmin j2 w2 h2
        · intro j2 h2 w2 hw2
          cases j2 with
          | zero =>
            injection hw2 with h3
            rw [← h3]
            exact lt_of_lt_of_le hlt (le_of_not_lt hx)
          | succ j2 => exact hfirst j2 (by omega) w2 hw2

/-- `np.argmin` returns the first index of the minimum: the value
there is a global lower bound and strictly below every earlier
element. -/
lemma np_argmin_spec (l : List ℝ) (i : ℕ) (h : np_argmin l = .ok i) :
    ∃ v, l.get? i = some v
      ∧ (∀ j w, l.get? j = some w → v ≤ w)
      ∧ (∀ j, j < i → ∀ w, l.get? j = some w → v < w) := by
  cases l with
  | nil => exact absurd h (by simp [np_argmin])
  | cons x xs =>
    rw [np_argmin] at h
    injection h with h2
    rcases argminAux_spec xs x 0 1 with ⟨heq, hall⟩ | ⟨j, w, heq, hget, hlt, hmin, hfirst⟩
    · refine ⟨x, ?_, ?_, ?_⟩
      · rw [← h2, heq]
        rfl
      · intro j2 w2 hw2
        cases j2 with
        | zero => injection hw2 with h3; rw [← h3]
        | succ j2 => exact hall j2 w2 hw2
      · intro j2 hj2 w2 hw2
        rw [← h2, heq] at hj2
        omega
    · refine ⟨w, ?_, ?_, ?_⟩
      · rw [← h2, heq, show 1 + j = j + 1 from by omega]
        exact hget
      · intro j2 w2 hw2
        cases j2 with
        | zero =>
          injection hw2 with h3
          rw [← h3]
          exact le_of_lt hlt
        | succ j2 => exact hmin j2 w2 hw2
      · intro j2 hj2 w2 hw2
        rw [← h2, heq] at hj2
        cases j2 with
        | zero =>
          injection hw2 with h3
          rw [← h3]
          exact hlt
        | succ j2 => exact hfirst j2 (by omega) w2 hw2

/-! ### Claim theorems -/

/-- Claim C1, counterexample: with a scan of all "no return" samples
and `δ = 3`, the code returns cost `1 = |δ| / 3`, not `|δ| = 3` as the
claim states — the division by 3 applies to the whole cost, steering
term included. -/
theorem C1_counterexample :
    compute_cost 0 3 pA msgANone = .ok 1 ∧ (1 : ℝ) ≠ |(3 : ℝ)| := by
  constructor
  · have h := compute_cost_ok 0 3 pA msgANone none none none
      (by rw [scan_index_msgANone]; rfl)
      (by rw [scan_index_msgANone]; rfl)
      (by rw [scan_index_msgANone]; rfl)
    rw [h]
    norm_num [rangeGt]
  · norm_num

/-- Claim C1, amended: when all three sampled rays are in range the
cost equals `(|δ| + sum of per-ray MAX_PENALTY contributions) / 3`; in
particular a scan of all "no return" samples gives `|δ| / 3`, and three
penalized rays give `|δ| / 3 + MAX_PENALTY`. -/
theorem C1_amended (laser_offset delta : ℝ) (p : ℝ × ℝ × ℝ) (msg : LaserScanMsg)
    (r0 r1 r2 : Option ℝ)
    (h0 : pyIdx msg.ranges (scan_index p msg) = .ok r0)
    (h1 : pyIdx msg.ranges (scan_index p msg + 1) = .ok r1)
    (h2 : pyIdx msg.ranges (scan_index p msg - 1) = .ok r2) :
    compute_cost laser_offset delta p msg =
      .ok ((|delta|
        + (if rangeGt (p.1 ^ 2 + p.2.1 ^ 2) r0 laser_offset then MAX_PENALTY else 0)
        + (if rangeGt (p.1 ^ 2 + p.2.1 ^ 2) r1 laser_offset then MAX_PENALTY else 0)
        + (if rangeGt (p.1 ^ 2 + p.2.1 ^ 2) r2 laser_offset then MAX_PENALTY else 0)) / 3)
    ∧ (r0 = none → r1 = none → r2 = none →
        compute_cost laser_offset delta p msg = .ok (|delta| / 3))
    ∧ (rangeGt (p.1 ^ 2 + p.2.1 ^ 2) r0 laser_offset = true →
       rangeGt (p.1 ^ 2 + p.2.1 ^ 2) r1 laser_offset = true →
       rangeGt (p.1 ^ 2 + p.2.1 ^ 2) r2 laser_offset = true →
        compute_cost laser_offset delta p msg = .ok (|delta| / 3 + MAX_PENALTY)) := by
  refine ⟨compute_cost_ok _ _ _ _ _ _ _ h0 h1 h2, ?_, ?_⟩
  · intro e0 e1 e2
    subst e0; subst e1; subst e2
    rw [compute_cost_ok _ _ _ _ _ _ _ h0 h1 h2]
    norm_num [rangeGt]
  · intro g0 g1 g2
    rw [compute_cost_ok _ _ _ _ _ _ _ h0 h1 h2]
    rw [g0, g1, g2]
    simp only [if_true]
    congr 1
    unfold MAX_PENALTY
    ring

/-- Witness for C1's amended theorem at `δ = 3`, pose `pA`, scan
`msgA`: all three rays are in range, none is penalized, and the cost is
`|3| / 3 = 1`. -/
theorem C1_amended_witness :
    pyIdx msgA.ranges (scan_index pA msgA) = .ok (some 10)
    ∧ pyIdx msgA.ranges (scan_index pA msgA + 1) = .ok (some 10)
    ∧ pyIdx msgA.ranges (scan_index pA msgA - 1) = .ok (some 10)
    ∧ compute_cost 0 3 pA msgA = .ok 1 := by
  have ha : pyIdx msgA.ranges (scan_index pA msgA) = .ok (some 10) := by
    rw [scan_index_msgA]; rfl
  have hb : pyIdx msgA.ranges (scan_index pA msgA + 1) = .ok (some 10) := by
    rw [scan_index_msgA]; rfl
  have hc : pyIdx msgA.ranges (scan_index pA msgA - 1) = .ok (some 10) := by
    rw [scan_index_msgA]; rfl
  refine ⟨ha, hb, hc, ?_⟩
  rw [(C1_amended 0 3 pA msgA _ _ _ ha hb hc).1]
  norm_num [rangeGt, pA]

/-- Claim C2 (code bug): at pose `(0,0,0)` with control `(1, 0, 1)` the
step returns heading `2π`, which is in neither `[0, 2π)` nor
`(-π, π]` — the wrap loops normalize into `[2π, 4π)` instead of a
canonical range. -/
theorem C2_code_bug_eval :
    kinematic_model_step (0, 0, 0) (1, 0, 1) 1 = (1, 0, 2 * Real.pi)
    ∧ (2 * Real.pi) ∉ Set.Ico (0 : ℝ) (2 * Real.pi)
    ∧ (2 * Real.pi) ∉ Set.Ioc (-Real.pi) Real.pi := by
  refine ⟨step_eval_straight, ?_, ?_⟩
  · intro h
    exact lt_irrefl _ h.2
  · intro h
    nlinarith [Real.pi_pos, h.2]

/-- Claim C3 (code bug): with a one-ray scan whose only index is the
computed one, the `idx+1` lookup raises `IndexError`, which propagates
out of `compute_cost` — the ray is not skipped.  Moreover, a negative
`idx-1` silently wraps to the last element of the scan instead of
being skipped (shown on the two-ray scan `msgC`). -/
theorem C3_code_bug_eval :
    compute_cost 0 0 pA msgB = .error .indexError
    ∧ pyIdx msgC.ranges (scan_index pA msgC - 1) = .ok (some 7) := by
  constructor
  · simp only [compute_cost, scan_index_msgB]
    rfl
  · rw [scan_index_msgC]
    rfl

/-- Claim C4, counterexample: at `δ = 0` (below the threshold) the
heading is not returned unchanged: the wrap loops move it from `0` to
`2π`. -/
theorem C4_counterexample :
    |(0 : ℝ)| < 1 / 100
    ∧ kinematic_model_step (0, 0, 0) (1, 0, 1) 1 = (1, 0, 2 * Real.pi)
    ∧ 2 * Real.pi ≠ (0 : ℝ) :=
  ⟨by norm_num, step_eval_straight, ne_of_gt (by positivity)⟩

/-- Claim C4, amended: below the `1e-2` threshold the displacement is
exactly the straight-line `v·cos θ·dt`, `v·sin θ·dt`, and the heading
is `θ` shifted by an integer multiple of `2π` into `[2π, 4π)` (so
`Δθ = 0` before wrapping, but the returned heading is generally not
`θ`). -/
theorem C4_amended (x y theta v delta dt car_length : ℝ) (h : |delta| < 1 / 100) :
    kinematic_model_step (x, y, theta) (v, delta, dt) car_length
      = (x + v * Real.cos theta * dt, y + v * Real.sin theta * dt, wrapUp (wrapDown theta))
    ∧ (∃ k : ℤ, wrapUp (wrapDown theta) = theta + 2 * Real.pi * k)
    ∧ 2 * Real.pi ≤ wrapUp (wrapDown theta) := by
  refine ⟨?_, wrap_multiple theta, wrapUp_ge _⟩
  simp only [kinematic_model_step, if_pos h]
  norm_num

/-- Witness for C4's amended theorem at `(0,0,0)`, `(1,0,1)`, `L = 1`. -/
theorem C4_amended_witness :
    |(0 : ℝ)| < 1 / 100
    ∧ (kinematic_model_step (0, 0, 0) (1, 0, 1) 1
        = (0 + 1 * Real.cos 0 * 1, 0 + 1 * Real.sin 0 * 1, wrapUp (wrapDown 0))
      ∧ (∃ k : ℤ, wrapUp (wrapDown 0) = 0 + 2 * Real.pi * k)
      ∧ 2 * Real.pi ≤ wrapUp (wrapDown 0)) :=
  ⟨by norm_num, C4_amended 0 0 0 1 0 1 1 (by norm_num)⟩

lemma np_argmin_map_scale (a : ℝ) (ha : 0 < a) (c : List ℝ) :
    np_argmin (c.map fun x => a * x) = np_argmin c := by
  cases c with
  | nil => rfl
  | cons x xs =>
    rw [List.map_cons, np_argmin, np_argmin, argminAux_map_scale a ha]

/-- Claim C5, counterexample: with the degenerate configuration
`min_δ = 0`, `max_δ = 1`, `δ_increment = -1`, `generate_mpc_rollouts`
does not fail — it silently returns an empty candidate set and an
empty rollout table. -/
theorem C5_counterexample :
    generate_mpc_rollouts 1 0 1 (-1) 1 1 1 = some ([], []) := by
  have hc : ⌈((1 : ℝ) - 0) / (-1)⌉₊ = 0 := by
    apply Nat.ceil_eq_zero.mpr
    norm_num
  rw [generate_mpc_rollouts_ok 1 0 1 (-1) 1 1 1 (by norm_num), hc]
  simp

/-- Claim C5, amended: on a degenerate configuration (nonzero
`δ_increment` whose sign disagrees with the range, including
`max_δ ≤ min_δ` with positive increment), the Rollout Generator does
not raise `InvalidConfiguration`: it silently succeeds with an empty
candidate set and empty rollout table, and the controller proceeds. -/
theorem C5_amended (speed min_delta max_delta delta_incr dt : ℝ) (T : ℕ) (car_length : ℝ)
    (hstep : delta_incr ≠ 0)
    (hdeg : (max_delta - min_delta) / delta_incr ≤ 0) :
    generate_mpc_rollouts speed min_delta max_delta delta_incr dt T car_length
      = some ([], []) := by
  rw [generate_mpc_rollouts_ok _ _ _ _ _ _ _ hstep, Nat.ceil_eq_zero.mpr hdeg]
  simp

/-- Witness for C5's amended theorem on a concrete degenerate
configuration. -/
theorem C5_amended_witness :
    ((-1 : ℝ) ≠ 0) ∧ (((1 : ℝ) - 0) / (-1) ≤ 0)
    ∧ generate_mpc_rollouts 2 0 1 (-1) 1 3 1 = some ([], []) :=
  ⟨by norm_num, by norm_num, C5_amended 2 0 1 (-1) 1 3 1 (by norm_num) (by norm_num)⟩

/-- Claim C6, counterexample: with an empty candidate set the decision
cycle does not report a handled `NoCandidates` condition — it aborts
with the unhandled `ValueError` that `np.argmin` raises on an empty
array (no command is emitted, but the exception propagates to the
caller). -/
theorem C6_counterexample :
    wander_cb 1 1 [] [] ⟨[], 0, 1⟩ 0 = .error .valueError := by
  rfl

/-- Claim C6, amended: for every scan, laser offset and sweep count,
an empty candidate set makes `wander_cb` raise `ValueError` from
`np.argmin` (so no command is published), rather than reporting a
structured `NoCandidates` condition. -/
theorem C6_amended (laser_offset speed : ℝ) (rollouts : List (List (ℝ × ℝ × ℝ)))
    (laser_msg : LaserScanMsg) :
    ∀ k : ℕ, wander_cb laser_offset speed [] rollouts laser_msg k = .error .valueError := by
  intro k
  unfold wander_cb
  rw [runSweeps_nil]
  rfl

/-- Claim C7: for a valid configuration, `generate_mpc_rollouts`
produces exactly `N = ⌈(max_δ - min_δ) / δ_increment⌉` candidates
(half-open interval, `max_δ` excluded), every rollout has length
exactly `T`, the `i`-th candidate is `min_δ + i·δ_increment`, pose `t`
of rollout `i` is the pose after `t+1` kinematic steps from the origin
`(0,0,0)` with constant control `(speed, δ_i, dt)`, and in particular
pose `0` is one kinematic step from the origin. -/
theorem C7_rollout_structure (speed min_delta max_delta delta_incr dt : ℝ) (T : ℕ)
    (car_length : ℝ) (hinc : 0 < delta_incr) (hrange : min_delta < max_delta)
    (hT : 0 < T) :
    ∃ rollouts deltas,
      generate_mpc_rollouts speed min_delta max_delta delta_incr dt T car_length
        = some (rollouts, deltas)
      ∧ deltas.length = ⌈(max_delta - min_delta) / delta_incr⌉₊
      ∧ 1 ≤ deltas.length
      ∧ rollouts.length = deltas.length
      ∧ (∀ r ∈ rollouts, r.length = T)
      ∧ (∀ i : ℕ, i < deltas.length →
          deltas.get? i = some (min_delta + i * delta_incr)
          ∧ (∀ t : ℕ, t < T →
              (rollouts.get? i).bind (fun r => r.get? t)
                = some (stepIter car_length (speed, min_delta + i * delta_incr, dt) (t + 1)
                    ((0 : ℝ), (0 : ℝ), (0 : ℝ))))
          ∧ (rollouts.get? i).bind (fun r => r.get? 0)
              = some (kinematic_model_step ((0 : ℝ), (0 : ℝ), (0 : ℝ))
                  (speed, min_delta + i * delta_incr, dt) car_length)) := by
  have hne : delta_incr ≠ 0 := ne_of_gt hinc
  refine ⟨_, _, generate_mpc_rollouts_ok speed min_delta max_delta delta_incr dt T
    car_length hne, ?_, ?_, ?_, ?_, ?_⟩
  · rw [List.length_map, List.length_range]
  · rw [List.length_map, List.length_range]
    have : 0 < ⌈(max_delta - min_delta) / delta_incr⌉₊ :=
      Nat.ceil_pos.mpr (div_pos (sub_pos.mpr hrange) hinc)
    omega
  · rw [List.length_map]
  · intro r hr
    rw [List.mem_map] at hr
    obtain ⟨delta, _, hrd⟩ := hr
    rw [← hrd]
    exact generate_rollout_full_length _ _ _ (List.length_replicate _ _)
  · intro i hi
    rw [List.length_map, List.length_range] at hi
    have hdi : ((List.range ⌈(max_delta - min_delta) / delta_incr⌉₊).map
        (fun i : ℕ => min_delta + (i : ℝ) * delta_incr)).get? i
        = some (min_delta + i * delta_incr) := by
      rw [List.get?_map, List.get?_range hi]
      rfl
    have hrolli : ∀ t : ℕ, t < T →
        ((((List.range ⌈(max_delta - min_delta) / delta_incr⌉₊).map
            (fun i : ℕ => min_delta + (i : ℝ) * delta_incr)).map
          (fun delta => generate_rollout ((0 : ℝ), (0 : ℝ), (0 : ℝ))
            (List.replicate T (speed, delta, dt)) car_length T)).get? i).bind
          (fun r => r.get? t)
        = some (stepIter car_length (speed, min_delta + i * delta_incr, dt) (t + 1)
            ((0 : ℝ), (0 : ℝ), (0 : ℝ))) := by
      intro t ht
      rw [List.get?_map, hdi]
      simp only [Option.map_some', Option.some_bind]
      unfold generate_rollout
      rw [List.length_replicate, Nat.sub_self, List.replicate_zero, List.append_nil]
      exact rolloutPoses_replicate_get car_length _ T t _ ht
    refine ⟨hdi, hrolli, ?_⟩
    have h0 := hrolli 0 hT
    rw [h0]
    rfl

/-- Witness for C7 at the configuration `speed = 1`, range `[0, 1)`
with increment 1, `dt = 1`, `T = 1`, wheelbase 1. -/
theorem C7_rollout_structure_witness :
    ((0 : ℝ) < 1) ∧ ((0 : ℝ) < 1) ∧ (0 < 1)
    ∧ ∃ rollouts deltas,
      generate_mpc_rollouts 1 0 1 1 1 1 1 = some (rollouts, deltas)
      ∧ deltas.length = ⌈((1 : ℝ) - 0) / 1⌉₊
      ∧ 1 ≤ deltas.length
      ∧ rollouts.length = deltas.length
      ∧ (∀ r ∈ rollouts, r.length = 1)
      ∧ (∀ i : ℕ, i < deltas.length →
          deltas.get? i = some ((0 : ℝ) + (i : ℝ) * 1)
          ∧ (∀ t : ℕ, t < 1 →
              (rollouts.get? i).bind (fun r => r.get? t)
                = some (stepIter 1 (1, (0 : ℝ) + (i : ℝ) * 1, 1) (t + 1) ((0 : ℝ), (0 : ℝ), (0 : ℝ))))
          ∧ (rollouts.get? i).bind (fun r => r.get? 0)
              = some (kinematic_model_step ((0 : ℝ), (0 : ℝ), (0 : ℝ)) (1, (0 : ℝ) + (i : ℝ) * 1, 1) 1)) :=
  ⟨by norm_num, by norm_num, by norm_num,
    C7_rollout_structure 1 0 1 1 1 1 1 (by norm_num) (by norm_num) (by norm_num)⟩

/-- Claim C8: with a fixed scan and candidate set whose single sweep
succeeds with per-candidate costs `c`, the command after `k ≥ 1`
completed sweeps equals the command after one sweep (`k` sweeps only
scale every accumulator by `k`), and the argmin used for selection
returns the lowest index among the minimizers (ties broken by lowest
candidate index). -/
theorem C8_anytime_invariance (laser_offset speed : ℝ) (deltas : List ℝ)
    (rollouts : List (List (ℝ × ℝ × ℝ))) (laser_msg : LaserScanMsg) (c : List ℝ)
    (hs : sweepOnce laser_offset deltas rollouts laser_msg = .ok c)
    (hlen : c.length = deltas.length) :
    (∀ k : ℕ, 1 ≤ k →
      wander_cb laser_offset speed deltas rollouts laser_msg k
        = wander_cb laser_offset speed deltas rollouts laser_msg 1)
    ∧ (∀ i : ℕ, np_argmin c = .ok i →
        ∃ v, c.get? i = some v
          ∧ (∀ j w, c.get? j = some w → v ≤ w)
          ∧ (∀ j, j < i → ∀ w, c.get? j = some w → v < w)) := by
  constructor
  · intro k hk
    unfold wander_cb
    rw [runSweeps_scale _ _ _ _ _ hs hlen k, runSweeps_scale _ _ _ _ _ hs hlen 1]
    have h1 : (c.map fun x => ((1 : ℕ) : ℝ) * x) = c := by
      simp
    have hk0 : (0 : ℝ) < ((k : ℕ) : ℝ) := by
      have : 0 < k := hk
      exact_mod_cast this
    rw [h1]
    simp only [bind, Except.bind]
    rw [np_argmin_map_scale _ hk0]
  · exact fun i h => np_argmin_spec c i h

/-- Witness for C8 with one candidate (`δ = 1/2`) and an empty-horizon
rollout, whose sweep cost is `[0]`. -/
theorem C8_anytime_invariance_witness :
    sweepOnce 0 [(1 / 2 : ℝ)] [[]] ⟨[], 0, 1⟩ = .ok [0]
    ∧ ([(0 : ℝ)].length = [(1 / 2 : ℝ)].length)
    ∧ ((∀ k : ℕ, 1 ≤ k →
          wander_cb 0 1 [(1 / 2 : ℝ)] [[]] ⟨[], 0, 1⟩ k
            = wander_cb 0 1 [(1 / 2 : ℝ)] [[]] ⟨[], 0, 1⟩ 1)
      ∧ (∀ i : ℕ, np_argmin [(0 : ℝ)] = .ok i →
          ∃ v, [(0 : ℝ)].get? i = some v
            ∧ (∀ j w, [(0 : ℝ)].get? j = some w → v ≤ w)
            ∧ (∀ j, j < i → ∀ w, [(0 : ℝ)].get? j = some w → v < w))) :=
  ⟨rfl, rfl, C8_anytime_invariance 0 1 [(1 / 2 : ℝ)] [[]] ⟨[], 0, 1⟩ [0] rfl rfl⟩

/-- Claim C10: if the compute budget is non-positive or the deadline
has already passed at the first clock check, the timed loop performs
zero sweeps, every accumulator stays `0`, and the emitted command is
the candidate at index 0 regardless of the scan contents. -/
theorem C10_zero_sweeps (laser_offset speed start compute_time : ℝ) (clock : ℕ → ℝ)
    (d0 : ℝ) (ds : List ℝ) (rollouts : List (List (ℝ × ℝ × ℝ))) (laser_msg : LaserScanMsg)
    (k : ℕ)
    (hclock : start ≤ clock 0)
    (hbudget : compute_time ≤ 0 ∨ start + compute_time ≤ clock 0)
    (hk : sweepsValid clock start compute_time k) :
    k = 0
    ∧ runSweeps laser_offset (d0 :: ds) rollouts laser_msg k
        = .ok (List.replicate (d0 :: ds).length 0)
    ∧ wander_cb laser_offset speed (d0 :: ds) rollouts laser_msg k = .ok (d0, speed) := by
  have hk0 : k = 0 := by
    by_contra hne
    have hpos : 0 < k := Nat.pos_of_ne_zero hne
    have h0 := hk.1 0 hpos
    rcases hbudget with h | h
    · linarith
    · linarith
  subst hk0
  refine ⟨rfl, rfl, ?_⟩
  unfold wander_cb
  rw [runSweeps]
  simp only [bind, Except.bind]
  rw [List.length_cons, List.replicate_succ, np_argmin, argminAux_replicate_zero]
  rfl

/-- Witness for C10 with a frozen clock, zero budget and one
candidate. -/
theorem C10_zero_sweeps_witness :
    ((0 : ℝ) ≤ (fun _ : ℕ => (0 : ℝ)) 0)
    ∧ ((0 : ℝ) ≤ 0 ∨ (0 : ℝ) + 0 ≤ (fun _ : ℕ => (0 : ℝ)) 0)
    ∧ sweepsValid (fun _ : ℕ => (0 : ℝ)) 0 0 0
    ∧ (0 = 0
      ∧ runSweeps 0 ((1 / 2 : ℝ) :: []) [] ⟨[], 0, 1⟩ 0
          = .ok (List.replicate ((1 / 2 : ℝ) :: []).length 0)
      ∧ wander_cb 0 1 ((1 / 2 : ℝ) :: []) [] ⟨[], 0, 1⟩ 0 = .ok (1 / 2, 1)) :=
  ⟨le_refl 0, Or.inl (le_refl 0),
    ⟨fun i hi => absurd hi (Nat.not_lt_zero i), by norm_num [sweepsValid]⟩,
    C10_zero_sweeps 0 1 0 0 (fun _ => 0) (1 / 2) [] [] ⟨[], 0, 1⟩ 0
      (le_refl 0) (Or.inl (le_refl 0))
      ⟨fun i hi => absurd hi (Nat.not_lt_zero i), by norm_num [sweepsValid]⟩⟩

/-! ### Binary64 rounding and the wrap-loop termination claim -/

lemma rne_le_ceil (y : ℝ) : rne y ≤ ⌈y⌉ := by
  unfold rne
  split
  · rename_i h
    have hfl : (⌊y⌋ : ℝ) < y := by
      have := Int.floor_le y
      by_contra hc
      push_neg at hc
      have heq : (⌊y⌋ : ℝ) = y := le_antisymm this hc
      rw [← heq] at h
      norm_num at h
    have hceil : ⌈y⌉ = ⌊y⌋ + 1 := by
      rw [Int.ceil_eq_iff]
      constructor
      · push_cast
        linarith
      · push_cast
        linarith [Int.floor_le y, (by linarith [h] : y = (⌊y⌋ : ℝ) + 1 / 2)]
    rw [hceil]
    split <;> omega
  · have h1 : y + 1 / 2 < ((⌈y⌉ + 1 : ℤ) : ℝ) := by
      push_cast
      linarith [Int.le_ceil y]
    have h2 : ⌊y + 1 / 2⌋ < ⌈y⌉ + 1 := Int.floor_lt.mpr h1
    rw [round_eq]
    omega

lemma floor_le_rne (y : ℝ) : ⌊y⌋ ≤ rne y := by
  unfold rne
  split
  · split <;> omega
  · rw [round_eq]
    exact Int.floor_mono (by linarith)

lemma abs_rne_sub (y : ℝ) : |(rne y : ℝ) - y| ≤ 1 / 2 := by
  unfold rne
  split
  · rename_i h
    split <;> (push_cast; rw [abs_le]; constructor <;> linarith)
  · have := abs_sub_round y
    rw [abs_sub_comm] at this
    exact this

lemma binade_le {x : ℝ} (hx : x ≠ 0) : (2 : ℝ) ^ (Int.log 2 |x|) ≤ |x| :=
  Int.zpow_log_le_self (by norm_num) (abs_pos.mpr hx)

lemma binade_lt (x : ℝ) : |x| < (2 : ℝ) ^ (Int.log 2 |x| + 1) :=
  Int.lt_zpow_succ_log_self (by norm_num) _

lemma ulp_pos (x : ℝ) : (0 : ℝ) < 2 ^ ulpExp x := zpow_pos (by norm_num) _

/-- Rounding a positive real to a double gives a positive double. -/
lemma fl64_pos {x : ℝ} (hx : 0 < x) : 0 < fl64 x := by
  have hne : x ≠ 0 := ne_of_gt hx
  rw [fl64, if_neg hne]
  have hu : (0 : ℝ) < 2 ^ ulpExp x := ulp_pos x
  have habs : |x| = x := abs_of_pos hx
  have hlow : (2 : ℝ) ^ (Int.log 2 |x|) ≤ x := by
    have h := binade_le hne
    nth_rewrite 2 [habs] at h
    exact h
  have hy : (2 : ℝ) ^ (52 : ℤ) ≤ x / 2 ^ ulpExp x := by
    rw [le_div_iff₀ hu, ulpExp]
    calc (2 : ℝ) ^ (52 : ℤ) * 2 ^ (Int.log 2 |x| - 52)
        = 2 ^ (52 + (Int.log 2 |x| - 52)) := (zpow_add₀ (by norm_num) _ _).symm
      _ = 2 ^ (Int.log 2 |x|) := by congr 1; omega
      _ ≤ x := hlow
  have hcast : ((2 ^ 52 : ℤ) : ℝ) = (2 : ℝ) ^ (52 : ℤ) := by
    push_cast
    norm_num
  have hfl : (2 ^ 52 : ℤ) ≤ ⌊x / 2 ^ ulpExp x⌋ := Int.le_floor.mpr (by rw [hcast]; exact hy)
  have hr : (0 : ℤ) < rne (x / 2 ^ ulpExp x) := by
    have := floor_le_rne (x / 2 ^ ulpExp x)
    have h52 : (0 : ℤ) < 2 ^ 52 := by positivity
    omega
  exact mul_pos (by exact_mod_cast hr) hu

/-- Rounding a negative real to a double gives a negative double. -/
lemma fl64_neg {x : ℝ} (hx : x < 0) : fl64 x < 0 := by
  have hne : x ≠ 0 := ne_of_lt hx
  rw [fl64, if_neg hne]
  have hu : (0 : ℝ) < 2 ^ ulpExp x := ulp_pos x
  have habs : |x| = -x := abs_of_neg hx
  have hlow : (2 : ℝ) ^ (Int.log 2 |x|) ≤ -x := by
    have h := binade_le hne
    nth_rewrite 2 [habs] at h
    exact h
  have hy : x / 2 ^ ulpExp x ≤ -(2 : ℝ) ^ (52 : ℤ) := by
    rw [div_le_iff₀ hu, ulpExp]
    have h : (2 : ℝ) ^ (52 : ℤ) * 2 ^ (Int.log 2 |x| - 52) = 2 ^ (Int.log 2 |x|) := by
      rw [← zpow_add₀ (by norm_num : (2 : ℝ) ≠ 0)]
      congr 1
      omega
    nlinarith [hlow]
  have hcast : ((-(2 ^ 52) : ℤ) : ℝ) = -(2 : ℝ) ^ (52 : ℤ) := by
    push_cast
    norm_num
  have hceil : ⌈x / 2 ^ ulpExp x⌉ ≤ -(2 ^ 52) := Int.ceil_le.mpr (by rw [hcast]; exact hy)
  have hr : rne (x / 2 ^ ulpExp x) < 0 := by
    have := rne_le_ceil (x / 2 ^ ulpExp x)
    have h52 : (0 : ℤ) < 2 ^ 52 := by positivity
    omega
  have hcast2 : ((rne (x / 2 ^ ulpExp x) : ℤ) : ℝ) < 0 := by exact_mod_cast hr
  exact mul_neg_of_neg_of_pos hcast2 hu

/-- The rounding error of `fl64` is at most half an ulp, hence at most
`|x| / 2^53` (relative error `2^-53`). -/
lemma fl64_err {x : ℝ} (hx : x ≠ 0) : |fl64 x - x| ≤ |x| / 2 ^ (53 : ℤ) := by
  rw [fl64, if_neg hx]
  have hu : (0 : ℝ) < 2 ^ ulpExp x := ulp_pos x
  have hxu : (rne (x / 2 ^ ulpExp x) : ℝ) * 2 ^ ulpExp x - x
      = ((rne (x / 2 ^ ulpExp x) : ℝ) - x / 2 ^ ulpExp x) * 2 ^ ulpExp x := by
    field_simp
  rw [hxu, abs_mul, abs_of_pos hu]
  have h1 : |(rne (x / 2 ^ ulpExp x) : ℝ) - x / 2 ^ ulpExp x| ≤ 1 / 2 := abs_rne_sub _
  have h2 : (1 : ℝ) / 2 * 2 ^ ulpExp x ≤ |x| / 2 ^ (53 : ℤ) := by
    rw [le_div_iff₀ (zpow_pos (by norm_num) _), ulpExp]
    have key : (1 : ℝ) / 2 * 2 ^ (Int.log 2 |x| - 52) * 2 ^ (53 : ℤ)
        = 2 ^ (Int.log 2 |x|) := by
      rw [mul_assoc, ← zpow_add₀ (by norm_num : (2 : ℝ) ≠ 0)]
      rw [show Int.log 2 |x| - 52 + 53 = Int.log 2 |x| + 1 from by omega]
      rw [zpow_add₀ (by norm_num : (2 : ℝ) ≠ 0), zpow_one]
      ring
    rw [key]
    exact binade_le hx
  calc |(rne (x / 2 ^ ulpExp x) : ℝ) - x / 2 ^ ulpExp x| * 2 ^ ulpExp x
      ≤ 1 / 2 * 2 ^ ulpExp x := mul_le_mul_of_nonneg_right h1 (le_of_lt hu)
    _ ≤ |x| / 2 ^ (53 : ℤ) := h2

/-- Absorption below `2^56`: the doubles adjacent to `2^56` are 16
apart, so rounding any value in `(2^56, 2^56 + 8)` returns `2^56`
(ties-to-even is not even reached: the midpoint is at `+8`), and a
value at most `2^56` can never round above it. -/
lemma fl64_le_pow56 {w : ℝ} (hw : 0 < w) (hub : w < 2 ^ (56 : ℤ) + 8) :
    fl64 w ≤ 2 ^ (56 : ℤ) := by
  have hne : w ≠ 0 := ne_of_gt hw
  have habs : |w| = w := abs_of_pos hw
  have hulp : ulpExp w = Int.log 2 w - 52 := by rw [ulpExp, habs]
  have hu : (0 : ℝ) < 2 ^ ulpExp w := ulp_pos w
  have hlow : (2 : ℝ) ^ (Int.log 2 w) ≤ w := by
    have h := binade_le hne
    rw [habs] at h
    exact h
  have hup : w < (2 : ℝ) ^ (Int.log 2 w + 1) := by
    have h := binade_lt w
    rw [habs] at h
    exact h
  have hL57 : Int.log 2 w ≤ 56 := by
    by_contra hc
    push_neg at hc
    have h57 : (2 : ℝ) ^ (57 : ℤ) ≤ 2 ^ (Int.log 2 w) :=
      zpow_le_zpow_right₀ (by norm_num) (by omega)
    have h57e : (2 : ℝ) ^ (57 : ℤ) = 144115188075855872 := by norm_num
    have h56e : (2 : ℝ) ^ (56 : ℤ) = 72057594037927936 := by norm_num
    rw [h56e] at hub
    rw [h57e] at h57
    linarith
  rcases lt_or_eq_of_le hL57 with hL55 | hL56
  · have hwle : w ≤ (2 : ℝ) ^ (56 : ℤ) := by
      have h : (2 : ℝ) ^ (Int.log 2 w + 1) ≤ 2 ^ (56 : ℤ) :=
        zpow_le_zpow_right₀ (by norm_num) (by omega)
      linarith
    rw [fl64, if_neg hne]
    have hyle : w / 2 ^ ulpExp w ≤ (2 : ℝ) ^ (108 - Int.log 2 w) := by
      rw [div_le_iff₀ hu, hulp, ← zpow_add₀ (by norm_num : (2 : ℝ) ≠ 0)]
      rw [show 108 - Int.log 2 w + (Int.log 2 w - 52) = 56 from by omega]
      exact hwle
    have hMcast : (((2 : ℤ) ^ (108 - Int.log 2 w).toNat : ℤ) : ℝ)
        = (2 : ℝ) ^ (108 - Int.log 2 w) := by
      push_cast
      rw [← zpow_natCast (2 : ℝ), Int.toNat_of_nonneg (by omega)]
    have hceil : ⌈w / 2 ^ ulpExp w⌉ ≤ (2 : ℤ) ^ (108 - Int.log 2 w).toNat :=
      Int.ceil_le.mpr (by rw [hMcast]; exact hyle)
    have hrle : rne (w / 2 ^ ulpExp w) ≤ (2 : ℤ) ^ (108 - Int.log 2 w).toNat :=
      le_trans (rne_le_ceil _) hceil
    calc (rne (w / 2 ^ ulpExp w) : ℝ) * 2 ^ ulpExp w
        ≤ (((2 : ℤ) ^ (108 - Int.log 2 w).toNat : ℤ) : ℝ) * 2 ^ ulpExp w :=
          mul_le_mul_of_nonneg_right (by exact_mod_cast hrle) (le_of_lt hu)
      _ = 2 ^ (56 : ℤ) := by
          rw [hMcast, hulp, ← zpow_add₀ (by norm_num : (2 : ℝ) ≠ 0)]
          congr 1
          omega
  · rw [fl64, if_neg hne]
    have hulp4 : ulpExp w = 4 := by rw [hulp]; omega
    rw [hulp4]
    have h4e : (2 : ℝ) ^ (4 : ℤ) = 16 := by norm_num
    have h56e : (2 : ℝ) ^ (56 : ℤ) = 72057594037927936 := by norm_num
    rw [h4e]
    rw [hL56] at hlow
    rw [h56e] at hub hlow ⊢
    have hy1 : (4503599627370496 : ℝ) ≤ w / 16 := by
      rw [le_div_iff₀ (by norm_num : (0 : ℝ) < 16)]
      linarith
    have hy2 : w / 16 < 4503599627370496 + 1 / 2 := by
      rw [div_lt_iff₀ (by norm_num : (0 : ℝ) < 16)]
      linarith
    have hfloor : ⌊w / 16⌋ = 4503599627370496 := by
      rw [Int.floor_eq_iff]
      constructor
      · exact_mod_cast hy1
      · push_cast
        linarith
    have hrne : rne (w / 16) = 4503599627370496 := by
      rw [rne, hfloor]
      rw [if_neg ?hhalf]
      · rw [round_eq]
        rw [Int.floor_eq_iff]
        constructor
        · push_cast
          linarith [hy1]
        · push_cast
          linarith [hy2]
      case hhalf =>
        push_cast
        intro hcontra
        linarith [hy2]
    rw [hrne]
    push_cast
    linarith

lemma pow53_big : (1000 : ℝ) ≤ 2 ^ (53 : ℤ) := by norm_num

/-- The double nearest `π` is within `0.01` of `π`. -/
lemma fl64_pi_bounds : 3.13 < fl64 Real.pi ∧ fl64 Real.pi < 3.16 := by
  have h1 := fl64_err (ne_of_gt Real.pi_pos)
  rw [abs_of_pos Real.pi_pos, abs_le] at h1
  have h3 : Real.pi < 3.15 := by linarith [Real.pi_lt_d2]
  have h4 : (3.14 : ℝ) < Real.pi := by linarith [Real.pi_gt_d2]
  have h5 : Real.pi / 2 ^ (53 : ℤ) < 0.01 := by
    rw [div_lt_iff₀ (by positivity)]
    nlinarith [pow53_big]
  constructor <;> linarith

/-- The float constant `2*np.pi` lies in `(6, 7)`. -/
lemma twoPi64_bounds : 6 < twoPi64 ∧ twoPi64 < 7 := by
  obtain ⟨hp1, hp2⟩ := fl64_pi_bounds
  have hz : (0 : ℝ) < 2 * fl64 Real.pi := by linarith
  have h1 := fl64_err (ne_of_gt hz)
  rw [abs_of_pos hz, abs_le] at h1
  have h5 : 2 * fl64 Real.pi / 2 ^ (53 : ℤ) < 0.01 := by
    rw [div_lt_iff₀ (by positivity)]
    nlinarith [pow53_big]
  unfold twoPi64
  constructor <;> linarith

/-- At heading `-2^66`, the loop guard `theta + dtheta < 2*np.pi` is
true (in float arithmetic) whenever `dtheta ≤ 2^56`: the float sum is
negative. -/
lemma guard_lt_twoPi64 {d : ℝ} (h56 : d ≤ 2 ^ (56 : ℤ)) :
    fl64 (-(2 : ℝ) ^ (66 : ℤ) + d) < twoPi64 := by
  have hpow : (2 : ℝ) ^ (56 : ℤ) < 2 ^ (66 : ℤ) := by
    have h56e : (2 : ℝ) ^ (56 : ℤ) = 72057594037927936 := by norm_num
    have h66e : (2 : ℝ) ^ (66 : ℤ) = 73786976294838206464 := by norm_num
    rw [h56e, h66e]
    norm_num
  have harg : -(2 : ℝ) ^ (66 : ℤ) + d < 0 := by linarith
  have := fl64_neg harg
  linarith [twoPi64_bounds.1]

/-- The absorbed accumulator: starting from any `dtheta ∈ [0, 2^56]`,
the float update `dtheta += 2*np.pi` never leaves `[0, 2^56]`, so the
guard at heading `-2^66` stays true and the loop never exits, at any
fuel. -/
lemma wrapUpFloat_diverges :
    ∀ (n : ℕ) (d : ℝ), 0 ≤ d → d ≤ 2 ^ (56 : ℤ) →
      wrapUpFloatFuel n (-(2 : ℝ) ^ (66 : ℤ)) d = none := by
  intro n
  induction n with
  | zero =>
    intro d h0 h56
    rw [wrapUpFloatFuel, if_pos (guard_lt_twoPi64 h56)]
  | succ n ih =>
    intro d h0 h56
    rw [wrapUpFloatFuel, if_pos (guard_lt_twoPi64 h56)]
    have ht := twoPi64_bounds
    have hdp : (0 : ℝ) < d + twoPi64 := by linarith
    refine ih _ (le_of_lt (fl64_pos hdp)) (fl64_le_pow56 hdp ?_)
    linarith

/-- Claim C9: there exists an input pose with heading already below
`2π` — heading `-2^66`, reached by the step at pose `(0, 0, -2^66)`
with `δ = 0`, so `dtheta = 0` and the first wrap loop exits at once —
for which the second heading-normalization loop never terminates under
binary64 arithmetic: `dtheta += 2*np.pi` is absorbed once `dtheta`
reaches the `2^56` scale (where the double spacing is 16 > 2π), while
`theta + dtheta` stays near `-2^66`, far below `2π`; hence the
kinematic step function is not total over finite inputs. -/
theorem C9_loop_nontermination :
    ∃ theta : ℝ, theta < 2 * Real.pi
      ∧ (∀ n : ℕ, wrapDownFloatFuel n theta 0 = some 0)
      ∧ (∀ n : ℕ, wrapUpFloatFuel n theta 0 = none) := by
  have hpow : (0 : ℝ) < 2 ^ (66 : ℤ) := zpow_pos (by norm_num) _
  have h56 : (0 : ℝ) ≤ 2 ^ (56 : ℤ) := le_of_lt (zpow_pos (by norm_num) _)
  refine ⟨-(2 : ℝ) ^ (66 : ℤ), ?_, ?_, ?_⟩
  · nlinarith [Real.pi_pos]
  · intro n
    have hguard : ¬ twoPi64 < fl64 (-(2 : ℝ) ^ (66 : ℤ) + 0) :=
      not_lt_of_gt (guard_lt_twoPi64 h56)
    cases n with
    | zero => rw [wrapDownFloatFuel, if_neg hguard]
    | succ n => rw [wrapDownFloatFuel, if_neg hguard]
  · intro n
    exact wrapUpFloat_diverges n 0 (le_refl 0) h56
